import Mathlib

/-!
# Verification of the alignment-and-correlation core of `tracker_app.py`

Shallow embedding of the analytical pipeline of the sentiment-based
energy-commodity tracker:

* timestamps are modelled as natural-number day indices with day `0` a Monday,
  so `d` is a business day iff `d % 7 < 5`;
* a pandas `DataFrame` as used by the script (a datetime index plus named
  numeric columns, cells possibly `NaN`) is modelled by `Frame`: an ordered
  list of column names together with rows `(date, values)`, a cell being
  `Option ℚ` with `none` playing the role of `NaN`;
* the price series (`oil_data['Close']`) is a list of `(date, value)` pairs;
* `merged_df.resample`, `fillna(method='ffill')`, `pd.merge(...)` (inner join
  on the indices), `DataFrame.corr()` (Pearson, pairwise-complete
  observations, `NaN` when a variance is zero), `Series.shift(lag)` and
  `DataFrame.to_csv()` are each translated below, following the source
  line by line.

A Pearson correlation value is represented by the triple
`(Sxy, Sxx, Syy)` of centred cross- and auto-sums (`n·Σxy − Σx·Σy` etc.);
the floating-point coefficient of the program is `Sxy / √(Sxx·Syy)`,
which is defined exactly when `Sxx ≠ 0` and `Syy ≠ 0`, so the `Option`
layer below reproduces exactly the `NaN`/non-`NaN` behaviour of
`DataFrame.corr`.
-/

namespace Tracker

/-- A cell of a data frame: `none` models pandas `NaN`. -/
abbrev Val : Type := Option ℚ

/-- A pandas `DataFrame` with a date index: ordered column names and rows of
`(date, cell values)`, one cell per column. -/
structure Frame where
  cols : List String
  rows : List (ℕ × List Val)
deriving Repr, DecidableEq

/-- The index of a frame, in row order. -/
def Frame.dates (f : Frame) : List ℕ := f.rows.map Prod.fst

/-- Cell `j` of a row's value list (`none` when out of range, like a missing
cell). -/
def cellAt (vs : List Val) (j : ℕ) : Val := ((vs.get? j).getD none)

/-- Column `j` of a frame, top to bottom. -/
def Frame.colAt (f : Frame) (j : ℕ) : List Val := f.rows.map (fun r => cellAt r.2 j)

/-- Day `d` (day 0 being a Monday) is a business day iff it is not a
Saturday or Sunday. -/
def isBDay (d : ℕ) : Bool := d % 7 < 5

/-- The business-day bin a timestamp falls into under `resample('B')`:
a weekend date is assigned to the preceding Friday. -/
def binOf (d : ℕ) : ℕ := if d % 7 < 5 then d else d - (d % 7 - 4)

/-- Mean of a list of rationals, `none` on the empty list (pandas mean of an
empty/all-`NaN` bin is `NaN`). -/
def meanQ (xs : List ℚ) : Val :=
  if xs = [] then none else some (xs.sum / (xs.length : ℚ))

/-- `interest_over_time_df.resample('B').mean()` (line 67): the output index
is every business day from the bin of the first timestamp to the bin of the
last, and each cell is the skip-`NaN` mean of the raw cells falling in that
bin. -/
def resampleB (f : Frame) : Frame :=
  match f.rows with
  | [] => ⟨f.cols, []⟩
  | r0 :: _ =>
    let lo := binOf r0.1
    let hi := binOf (f.rows.getLastD r0).1
    let days := (List.range' lo (hi + 1 - lo)).filter (fun d => isBDay d)
    ⟨f.cols,
      days.map (fun b =>
        (b, (List.range f.cols.length).map (fun j =>
              meanQ ((f.rows.filter (fun r => binOf r.1 = b)).filterMap
                      (fun r => cellAt r.2 j)))))⟩

/-- One forward-fill step on a row: a `NaN` cell takes the carried value. -/
def ffillRow (vs carry : List Val) : List Val :=
  List.zipWith (fun v c => v.orElse (fun _ => c)) vs carry

/-- Forward fill over the rows, threading the per-column carry. -/
def ffillRows (carry : List Val) : List (ℕ × List Val) → List (ℕ × List Val)
  | [] => []
  | r :: rest =>
    let filled := ffillRow r.2 carry
    (r.1, filled) :: ffillRows filled rest

/-- `.fillna(method='ffill')` (line 67): per-column forward fill; a gap
before the first known value stays `NaN`. -/
def Frame.ffill (f : Frame) : Frame :=
  ⟨f.cols, ffillRows (List.replicate f.cols.length none) f.rows⟩

/-- `trends = interest_over_time_df.resample('B').mean().fillna(method='ffill')`
(line 67). -/
def trends (interest : Frame) : Frame := (resampleB interest).ffill

/-- Look up a date in the price series (`oil_data['Close']`). -/
def priceAt (price : List (ℕ × ℚ)) (d : ℕ) : Option ℚ :=
  (price.find? (fun x => x.1 = d)).map Prod.snd

/-- `merged_df = pd.merge(trends, oil_data['Close'], left_index=True,
right_index=True)` followed by the rename of `Close` to `'Oil Price'`
(lines 68-69): an inner join on the dates, keeping the left row order and
appending the price cell as the last column. -/
def mergeClose (t : Frame) (price : List (ℕ × ℚ)) : Frame :=
  ⟨t.cols ++ ["Oil Price"],
    t.rows.filterMap (fun r =>
      match priceAt price r.1 with
      | some q => some (r.1, r.2 ++ [some q])
      | none => none)⟩

/-- The whole alignment of lines 67-69: resample, forward fill, inner join
with the close price. -/
def merged_df (interest : Frame) (price : List (ℕ × ℚ)) : Frame :=
  mergeClose (trends interest) price

/-! ## Pearson correlation (`DataFrame.corr`, line 75) -/

/-- The centred sums `(n·Σxy − Σx·Σy, n·Σx² − (Σx)², n·Σy² − (Σy)²)` of a
list of value pairs: the program's Pearson coefficient over those pairs is
`Sxy / √(Sxx·Syy)`. -/
def pstats (ps : List (ℚ × ℚ)) : ℚ × ℚ × ℚ :=
  let n : ℚ := (ps.length : ℚ)
  let sx := (ps.map Prod.fst).sum
  let sy := (ps.map Prod.snd).sum
  let sxx := (ps.map (fun p => p.1 * p.1)).sum
  let syy := (ps.map (fun p => p.2 * p.2)).sum
  let sxy := (ps.map (fun p => p.1 * p.2)).sum
  (n * sxy - sx * sy, n * sxx - sx * sx, n * syy - sy * sy)

/-- Pearson correlation of a list of pairs, pandas style: `none` (`NaN`)
exactly when either variance vanishes — which covers fewer than two pairs —
and otherwise the triple of centred sums determining the coefficient. -/
def pearsonO (ps : List (ℚ × ℚ)) : Option (ℚ × ℚ × ℚ) :=
  let s := pstats ps
  if s.2.1 = 0 ∨ s.2.2 = 0 then none else some s

/-- Pairwise-complete observations of columns `i` and `j`: the rows where
both cells are non-`NaN` (pandas `corr` drops the others). -/
def completePairs (f : Frame) (i j : ℕ) : List (ℚ × ℚ) :=
  f.rows.filterMap (fun r =>
    match cellAt r.2 i, cellAt r.2 j with
    | some x, some y => some (x, y)
    | _, _ => none)

/-- Entry `(i, j)` of `merged_df.corr()` (line 75). -/
def corrEntry (f : Frame) (i j : ℕ) : Option (ℚ × ℚ × ℚ) :=
  pearsonO (completePairs f i j)

/-- `correlation = merged_df.corr()` (line 75): the full square matrix,
indexed in column order. -/
def correlation (f : Frame) : List (List (Option (ℚ × ℚ × ℚ))) :=
  (List.range f.cols.length).map (fun i =>
    (List.range f.cols.length).map (fun j => corrEntry f i j))

/-! ## Lagged correlation (lines 79-91) -/

/-- `Series.shift(k)` (line 86): the value originally at position `m` moves
to position `m + k`, the leading `k` cells become `NaN`, and the length is
preserved. -/
def shiftList (k : ℕ) (xs : List Val) : List Val :=
  (List.replicate k none ++ xs).take xs.length

/-- `shifted[kw] = ...` : replace column `j` of a frame by a new column,
row by row. -/
def Frame.setCol (f : Frame) (j : ℕ) (newCol : List Val) : Frame :=
  ⟨f.cols, (f.rows.zip newCol).map (fun rv => (rv.1.1, rv.1.2.set j rv.2))⟩

/-- The body of the inner loop of lines 84-88:
`shifted = merged_df.copy(); shifted[kw] = shifted[kw].shift(lag);`
`lag_corr = shifted.corr()[kw]['Oil Price']`, appended to the list. The
frame component of the state is `merged_df`, which the body reads but never
reassigns. -/
def lagStep (kw : String) (st : Frame × List (Option (ℚ × ℚ × ℚ))) (lag : ℕ) :
    Frame × List (Option (ℚ × ℚ × ℚ)) :=
  let merged := st.1
  let i := merged.cols.indexOf kw
  let j := merged.cols.indexOf "Oil Price"
  let shifted := merged.setCol i (shiftList lag (merged.colAt i))
  (merged, st.2 ++ [corrEntry shifted i j])

/-- The inner loop `for lag in range(1, 8)` of lines 84-88 for one keyword:
runs the body over lags 1..7 threading `merged_df` and the accumulating
list. -/
def lagLoop (f : Frame) (kw : String) : Frame × List (Option (ℚ × ℚ × ℚ)) :=
  (List.range' 1 7).foldl (lagStep kw) (f, [])

/-- `lag_results` (lines 81-89): per keyword, the list of lagged
correlations for lags 1..7. -/
def lag_results (f : Frame) (keywords : List String) :
    List (String × List (Option (ℚ × ℚ × ℚ))) :=
  keywords.map (fun kw => (kw, (lagLoop f kw).2))

/-! ## CSV export (`merged_df.to_csv().encode('utf-8')`, line 119)

The byte stream is modelled as a `List Char`. Cells are exact rationals
here, so the lossless textual form below (decimal digits, with `-` for the
sign and `/` separating numerator from denominator) plays the role of
pandas' full-precision, round-trippable float rendering, and the day index
in decimal plays the role of the ISO-8601 date. -/

/-- The decimal digit characters. -/
def digitChar (d : ℕ) : Char :=
  (['0', '1', '2', '3', '4', '5', '6', '7', '8', '9'].getD d '0')

/-- Decimal rendering worker: `fuel` bounds the recursion depth so the
definition is structural (and so computes by kernel reduction). -/
def natDigitsAux : ℕ → ℕ → List Char
  | 0, _ => []
  | fuel + 1, n =>
    if n < 10 then [digitChar n]
    else natDigitsAux fuel (n / 10) ++ [digitChar (n % 10)]

/-- Decimal rendering of a natural number, most significant digit first. -/
def natDigits (n : ℕ) : List Char := natDigitsAux (n + 1) n

theorem natDigitsAux_congr :
    ∀ f1 f2 n, n < f1 → n < f2 → natDigitsAux f1 n = natDigitsAux f2 n := by
  intro f1
  induction f1 with
  | zero => intro f2 n h1; omega
  | succ g ih =>
    intro f2 n h1 h2
    cases f2 with
    | zero => omega
    | succ h =>
      show (if n < 10 then _ else _) = (if n < 10 then _ else _)
      by_cases hn : n < 10
      · rw [if_pos hn, if_pos hn]
      · rw [if_neg hn, if_neg hn]
        have hd : n / 10 < n := Nat.div_lt_self (by omega) (by omega)
        rw [ih h (n / 10) (by omega) (by omega)]

/-- The defining recurrence of `natDigits`. -/
theorem natDigits_eq (n : ℕ) :
    natDigits n = if n < 10 then [digitChar n]
      else natDigits (n / 10) ++ [digitChar (n % 10)] := by
  show natDigitsAux (n + 1) n = _
  show (if n < 10 then _ else _) = _
  by_cases hn : n < 10
  · rw [if_pos hn, if_pos hn]
  · rw [if_neg hn, if_neg hn]
    have hd : n / 10 < n := Nat.div_lt_self (by omega) (by omega)
    rw [natDigitsAux_congr n (n / 10 + 1) (n / 10) (by omega) (by omega)]
    rfl

/-- Numeric value of a digit character. -/
def digitVal (c : Char) : ℕ := c.toNat - 48

/-- Fold a digit string into the natural number it denotes. -/
def parseDigits (cs : List Char) : ℕ :=
  cs.foldl (fun a c => a * 10 + digitVal c) 0

/-- Is this character a decimal digit? -/
def isDig (c : Char) : Bool := 48 ≤ c.toNat && c.toNat ≤ 57

/-- Checked parse of a nonempty all-digit string. -/
def parseNat (cs : List Char) : Option ℕ :=
  if cs ≠ [] ∧ cs.all isDig then some (parseDigits cs) else none

/-- Lossless rendering of a rational: optional sign, numerator digits, and
the denominator after `/` when it is not 1. -/
def renderQ (q : ℚ) : List Char :=
  (if q.num < 0 then ['-'] else []) ++ natDigits q.num.natAbs ++
    (if q.den = 1 then [] else '/' :: natDigits q.den)

/-- Split a character list at every occurrence of `sep` (the separators are
consumed; `n` separators yield `n + 1` fields). -/
def splitOnChar (sep : Char) : List Char → List (List Char)
  | [] => [[]]
  | c :: cs =>
    if c = sep then [] :: splitOnChar sep cs
    else
      match splitOnChar sep cs with
      | [] => [[c]]
      | f :: rest => (c :: f) :: rest

/-- Join fields with a separator character. -/
def joinSep (sep : Char) : List (List Char) → List Char
  | [] => []
  | [x] => x
  | x :: y :: rest => x ++ sep :: joinSep sep (y :: rest)

/-- Concatenate lines, terminating every line (the last included) with a
newline, as `DataFrame.to_csv` does. -/
def unlinesC (ls : List (List Char)) : List Char :=
  ls.foldr (fun l acc => l ++ '\n' :: acc) []

/-- Parse an unsigned rational: either plain digits or
`digits / digits`. -/
def parseQPos (cs : List Char) : Option ℚ :=
  match splitOnChar '/' cs with
  | [ds] => (parseNat ds).map (fun n => (n : ℚ))
  | [ns, ds] =>
    match parseNat ns, parseNat ds with
    | some n, some d => some ((n : ℚ) / (d : ℚ))
    | _, _ => none
  | _ => none

/-- Parse a rational with an optional leading minus sign. -/
def parseQ (cs : List Char) : Option ℚ :=
  match cs with
  | [] => none
  | c :: rest =>
    if c = '-' then (parseQPos rest).map (fun q => -q) else parseQPos (c :: rest)

/-- A cell as written by `to_csv`: `NaN` becomes the empty field. -/
def renderCell (v : Val) : List Char :=
  match v with
  | none => []
  | some q => renderQ q

/-- Parse a CSV cell: the empty field is `NaN`. -/
def parseCell (cs : List Char) : Option Val :=
  match cs with
  | [] => some none
  | _ => (parseQ cs).map some

/-- One data line of the CSV: the date, then the cells, comma-separated. -/
def csvRow (r : ℕ × List Val) : List Char :=
  joinSep ',' (natDigits r.1 :: r.2.map renderCell)

/-- `merged_df.to_csv()` (line 119): a header line with the index label
first and the column names in order, then one line per row in row order,
every line newline-terminated. -/
def to_csv (idxName : String) (f : Frame) : List Char :=
  unlinesC (joinSep ',' (idxName.data :: f.cols.map String.data) :: f.rows.map csvRow)

/-- Parse one CSV data line. -/
def parseRow (line : List Char) : Option (ℕ × List Val) :=
  match splitOnChar ',' line with
  | [] => none
  | ds :: cells =>
    match parseNat ds, cells.mapM parseCell with
    | some d, some vs => some (d, vs)
    | _, _ => none

/-- Re-parse a CSV byte stream into an index label and a frame: split into
newline-terminated lines, read the header fields, then parse every data
line. -/
def parseCsvLines (parts : List (List Char)) : Option (String × Frame) :=
  match parts.getLast? with
  | some [] =>
    match parts.dropLast with
    | [] => none
    | header :: rowLines =>
      match splitOnChar ',' header with
      | [] => none
      | idx :: colFs =>
        match rowLines.mapM parseRow with
        | some rows => some (String.mk idx, ⟨colFs.map String.mk, rows⟩)
        | none => none
  | _ => none

/-- Re-parse a CSV byte stream into an index label and a frame. -/
def parseCsv (cs : List Char) : Option (String × Frame) :=
  parseCsvLines (splitOnChar '\n' cs)

/-! ## Basic facts about the Pearson stats -/

theorem sum_const_mul (l : List ℚ) (c : ℚ) (h : ∀ x ∈ l, x = c) :
    l.sum = (l.length : ℚ) * c := by
  induction l with
  | nil => simp
  | cons a t ih =>
    have ha : a = c := h a (by simp)
    have ht : t.sum = (t.length : ℚ) * c := ih (fun x hx => h x (by simp [hx]))
    simp only [List.sum_cons, List.length_cons, ha, ht]
    push_cast
    ring

theorem pstats_snd_zero_of_const (ps : List (ℚ × ℚ)) (c : ℚ)
    (h : ∀ p ∈ ps, p.2 = c) : (pstats ps).2.2 = 0 := by
  have h1 : (ps.map Prod.snd).sum = (ps.length : ℚ) * c := by
    rw [sum_const_mul (ps.map Prod.snd) c]
    · simp
    · intro x hx
      rcases List.mem_map.1 hx with ⟨p, hp, rfl⟩
      exact h p hp
  have h2 : (ps.map (fun p => p.2 * p.2)).sum = (ps.length : ℚ) * (c * c) := by
    rw [sum_const_mul (ps.map (fun p => p.2 * p.2)) (c * c)]
    · simp
    · intro x hx
      rcases List.mem_map.1 hx with ⟨p, hp, rfl⟩
      rw [h p hp]
  simp only [pstats, h1, h2]
  ring

theorem pstats_fst_zero_of_const (ps : List (ℚ × ℚ)) (c : ℚ)
    (h : ∀ p ∈ ps, p.1 = c) : (pstats ps).2.1 = 0 := by
  have h1 : (ps.map Prod.fst).sum = (ps.length : ℚ) * c := by
    rw [sum_const_mul (ps.map Prod.fst) c]
    · simp
    · intro x hx
      rcases List.mem_map.1 hx with ⟨p, hp, rfl⟩
      exact h p hp
  have h2 : (ps.map (fun p => p.1 * p.1)).sum = (ps.length : ℚ) * (c * c) := by
    rw [sum_const_mul (ps.map (fun p => p.1 * p.1)) (c * c)]
    · simp
    · intro x hx
      rcases List.mem_map.1 hx with ⟨p, hp, rfl⟩
      rw [h p hp]
  simp only [pstats, h1, h2]
  ring

theorem pearsonO_eq_none_of_snd_const (ps : List (ℚ × ℚ)) (c : ℚ)
    (h : ∀ p ∈ ps, p.2 = c) : pearsonO ps = none := by
  unfold pearsonO
  rw [if_pos (Or.inr (pstats_snd_zero_of_const ps c h))]

theorem pearsonO_eq_none_of_fst_const (ps : List (ℚ × ℚ)) (c : ℚ)
    (h : ∀ p ∈ ps, p.1 = c) : pearsonO ps = none := by
  unfold pearsonO
  rw [if_pos (Or.inl (pstats_fst_zero_of_const ps c h))]

/-- Fewer than two pairs leave both variances zero, so the correlation is
`NaN`, exactly as `DataFrame.corr` behaves. -/
theorem pearsonO_eq_none_of_short (ps : List (ℚ × ℚ)) (h : ps.length ≤ 1) :
    pearsonO ps = none := by
  match ps, h with
  | [], _ => simp [pearsonO, pstats]
  | [p], _ =>
    apply pearsonO_eq_none_of_snd_const [p] p.2
    intro q hq
    simp at hq
    rw [hq]

/-- Every pair drawn from a frame whose column `j` is constantly `some c`
has second component `c`. -/
theorem completePairs_snd_const (f : Frame) (i j : ℕ) (c : ℚ)
    (h : ∀ r ∈ f.rows, cellAt r.2 j = some c) :
    ∀ p ∈ completePairs f i j, p.2 = c := by
  intro p hp
  rcases List.mem_filterMap.1 hp with ⟨r, hr, hpr⟩
  rw [h r hr] at hpr
  cases hx : cellAt r.2 i with
  | none => rw [hx] at hpr; simp at hpr
  | some x =>
    rw [hx] at hpr
    simp only [Option.some.injEq] at hpr
    rw [← hpr]

/-! ## Frame-level helper lemmas -/

theorem priceAt_isSome_iff (price : List (ℕ × ℚ)) (d : ℕ) :
    (priceAt price d).isSome ↔ d ∈ price.map Prod.fst := by
  have h1 : (priceAt price d).isSome = (price.find? (fun x => x.1 = d)).isSome := by
    unfold priceAt
    cases price.find? (fun x => x.1 = d) <;> rfl
  rw [show ((priceAt price d).isSome ↔ d ∈ price.map Prod.fst) ↔
        ((priceAt price d).isSome = true ↔ d ∈ price.map Prod.fst) from Iff.rfl]
  rw [h1, List.find?_isSome]
  simp [eq_comm]

theorem completePairs_of_rows_nil (f : Frame) (h : f.rows = []) (i j : ℕ) :
    completePairs f i j = [] := by
  simp [completePairs, h]

/-- A constant frame: two columns, the first constantly 5, two rows
(used as witness input below). -/
def constFrame : Frame :=
  ⟨["a", "Oil Price"], [(0, [some 5, some 1]), (1, [some 5, some 2])]⟩

/-- C8: a zero-variance column makes every correlation entry that involves
it (diagonal included, two constant columns included) the `NaN`/undefined
marker `none`, never a substituted number: `DataFrame.corr` divides by the
zero standard deviation, and the model refuses the triple instead. -/
theorem c8_zero_variance_all_entries_undefined (f : Frame) (j : ℕ) (c : ℚ)
    (hconst : ∀ r ∈ f.rows, cellAt r.2 j = some c) :
    (∀ i, corrEntry f i j = none) ∧ (∀ i, corrEntry f j i = none) ∧
    correlation f = (List.range f.cols.length).map
      (fun a => (List.range f.cols.length).map (fun b => corrEntry f a b)) := by
  refine ⟨fun i => ?_, fun i => ?_, rfl⟩
  · exact pearsonO_eq_none_of_snd_const _ c (completePairs_snd_const f i j c hconst)
  · apply pearsonO_eq_none_of_fst_const _ c
    intro p hp
    rcases List.mem_filterMap.1 hp with ⟨r, hr, hpr⟩
    rw [hconst r hr] at hpr
    cases hy : cellAt r.2 i with
    | none => rw [hy] at hpr; simp at hpr
    | some y =>
      rw [hy] at hpr
      simp only [Option.some.injEq] at hpr
      rw [← hpr]

/-- C8 witness: on the concrete two-row frame whose first column is
constantly 5, the diagonal entry and the entry against the price column
are both `none`. -/
theorem c8_witness :
    corrEntry constFrame 0 0 = none ∧ corrEntry constFrame 1 0 = none :=
  ⟨(c8_zero_variance_all_entries_undefined constFrame 0 5 (by decide)).1 0,
   (c8_zero_variance_all_entries_undefined constFrame 0 5 (by decide)).1 1⟩

theorem resampleB_cols (f : Frame) : (resampleB f).cols = f.cols := by
  unfold resampleB
  cases f.rows <;> rfl

theorem trends_cols (interest : Frame) : (trends interest).cols = interest.cols := by
  show (resampleB interest).cols = interest.cols
  exact resampleB_cols interest

theorem mergeClose_cols (t : Frame) (price : List (ℕ × ℚ)) :
    (mergeClose t price).cols = t.cols ++ ["Oil Price"] := rfl

theorem merged_df_cols (interest : Frame) (price : List (ℕ × ℚ)) :
    (merged_df interest price).cols = interest.cols ++ ["Oil Price"] := by
  unfold merged_df
  rw [mergeClose_cols, trends_cols]

theorem mergeClose_rows_eq_nil (t : Frame) (price : List (ℕ × ℚ))
    (h : ∀ r ∈ t.rows, r.1 ∉ price.map Prod.fst) : (mergeClose t price).rows = [] := by
  show t.rows.filterMap _ = []
  rw [List.filterMap_eq_nil_iff]
  intro r hr
  have hn : priceAt price r.1 = none := by
    rw [← Option.not_isSome_iff_eq_none, priceAt_isSome_iff]
    exact h r hr
  simp only [hn]

theorem mem_dates_mergeClose (t : Frame) (price : List (ℕ × ℚ)) (d : ℕ) :
    d ∈ (mergeClose t price).dates ↔ d ∈ t.dates ∧ d ∈ price.map Prod.fst := by
  constructor
  · intro hd
    rcases List.mem_map.1 hd with ⟨row, hrow, hfst⟩
    rcases List.mem_filterMap.1 hrow with ⟨r, hr, hg⟩
    cases hp : priceAt price r.1 with
    | none => rw [hp] at hg; simp at hg
    | some q =>
      rw [hp] at hg
      simp only [Option.some.injEq] at hg
      have hr1 : row.1 = r.1 := by rw [← hg]
      rw [← hfst, hr1]
      refine ⟨List.mem_map.2 ⟨r, hr, rfl⟩, ?_⟩
      rw [← priceAt_isSome_iff, hp]
      rfl
  · rintro ⟨h1, h2⟩
    rcases List.mem_map.1 h1 with ⟨r, hr, hfst⟩
    have hs : (priceAt price r.1).isSome := by
      rw [priceAt_isSome_iff, hfst]
      exact h2
    cases hp : priceAt price r.1 with
    | none => rw [hp] at hs; simp at hs
    | some q =>
      apply List.mem_map.2
      refine ⟨(r.1, r.2 ++ [some q]), List.mem_filterMap.2 ⟨r, hr, ?_⟩, hfst⟩
      simp only [hp]

/-! ## C1: no calendar overlap -/

/-- Interest series spanning January only: days 0 and 1. -/
def janFrame : Frame := ⟨["crude oil"], [(0, [some 10]), (1, [some 20])]⟩

/-- Price series spanning March only: days 60 and 61. -/
def marPrice : List (ℕ × ℚ) := [(60, 50), (61, 51)]

/-- C1 counterexample: with interest in January only and prices in March
only, the program does not abort with any `NoOverlapError` — no such path
exists in the source. Line 68's join silently yields an empty table and
line 75 still computes a correlation matrix, every entry `NaN`. -/
theorem c1_counterexample :
    (merged_df janFrame marPrice).rows = [] ∧
    correlation (merged_df janFrame marPrice) = [[none, none], [none, none]] :=
  of_decide_eq_true (by with_unfolding_all rfl)

/-- C1 (amended): when no timestamp of the filled interest series occurs
in the price series, the alignment does not fail: the merged table is
empty and the analysis proceeds to the correlation step, producing the
all-`NaN` matrix. -/
theorem c1_no_overlap_empty_merge_proceeds (interest : Frame)
    (price : List (ℕ × ℚ))
    (h : ∀ r ∈ (trends interest).rows, r.1 ∉ price.map Prod.fst) :
    (merged_df interest price).rows = [] ∧
    (∀ i j, corrEntry (merged_df interest price) i j = none) ∧
    correlation (merged_df interest price) =
      (List.range (interest.cols.length + 1)).map
        (fun _ => (List.range (interest.cols.length + 1)).map
          (fun _ => (none : Option (ℚ × ℚ × ℚ)))) := by
  have hnil : (merged_df interest price).rows = [] :=
    mergeClose_rows_eq_nil (trends interest) price h
  have hent : ∀ i j, corrEntry (merged_df interest price) i j = none := by
    intro i j
    unfold corrEntry
    rw [completePairs_of_rows_nil _ hnil]
    exact pearsonO_eq_none_of_short [] (by simp)
  refine ⟨hnil, hent, ?_⟩
  unfold correlation
  have hlen : (merged_df interest price).cols.length = interest.cols.length + 1 := by
    rw [merged_df_cols]
    simp
  rw [hlen]
  apply List.map_congr_left
  intro i _
  apply List.map_congr_left
  intro j _
  exact hent i j

/-- C1 witness: the amended statement applied to the concrete
January/March inputs, instantiated at the matrix entry (0, 1). -/
theorem c1_witness :
    (merged_df janFrame marPrice).rows = [] ∧
    corrEntry (merged_df janFrame marPrice) 0 1 = none :=
  ⟨(c1_no_overlap_empty_merge_proceeds janFrame marPrice (by decide)).1,
   (c1_no_overlap_empty_merge_proceeds janFrame marPrice (by decide)).2.1 0 1⟩

/-- C6: a timestamp is in the merged table exactly when it is both in the
filled interest series of line 67 and in the price series: line 68's
`pd.merge` with `left_index`/`right_index` is an inner join on exact
timestamp match, so any day missing from either side is dropped. -/
theorem c6_merged_dates_eq_intersection (interest : Frame)
    (price : List (ℕ × ℚ)) (d : ℕ) :
    d ∈ (merged_df interest price).dates ↔
      d ∈ (trends interest).dates ∧ d ∈ price.map Prod.fst :=
  mem_dates_mergeClose (trends interest) price d

/-! ## C3: column pass-through -/

theorem to_csv_expand (idxName : String) (f : Frame) :
    to_csv idxName f =
      joinSep ',' (idxName.data :: f.cols.map String.data) ++
        '\n' :: unlinesC (f.rows.map csvRow) := rfl

/-- Upstream interest frame exactly as `pytrends.interest_over_time()`
returns it: the keyword column plus the `isPartial` flag column (0/1 after
the mean aggregation of line 67). -/
def partialFrame : Frame :=
  ⟨["crude oil", "isPartial"], [(0, [some 10, some 0]), (1, [some 20, some 0])]⟩

/-- A two-day price series matching `partialFrame`'s span. -/
def shortPrice : List (ℕ × ℚ) := [(0, 50), (1, 51)]

/-- C3 counterexample: the source never projects the upstream frame onto
the keyword columns, so the extra upstream `isPartial` column survives into
the merged table, is a row/column of the correlation matrix, and appears in
the exported CSV, refuting "no additional columns from the upstream sources
appear". -/
theorem c3_counterexample :
    (merged_df partialFrame shortPrice).cols ≠ ["crude oil", "Oil Price"] ∧
    (merged_df partialFrame shortPrice).cols =
      ["crude oil", "isPartial", "Oil Price"] ∧
    (correlation (merged_df partialFrame shortPrice)).length = 3 ∧
    (to_csv "date" (merged_df partialFrame shortPrice)).asString =
      "date,crude oil,isPartial,Oil Price\n0,10,0,50\n1,20,0,51\n" :=
  of_decide_eq_true (by with_unfolding_all rfl)

/-- C3 (amended): the merged table's columns are exactly all columns of the
upstream interest frame, in their upstream order, followed by the price
column — the code performs no projection, so any extra upstream column
(such as `isPartial`) propagates into the correlation matrix and the CSV
export. -/
theorem c3_columns_are_upstream_plus_price (interest : Frame)
    (price : List (ℕ × ℚ)) (idxName : String) :
    (merged_df interest price).cols = interest.cols ++ ["Oil Price"] ∧
    (correlation (merged_df interest price)).length = interest.cols.length + 1 ∧
    to_csv idxName (merged_df interest price) =
      joinSep ',' (idxName.data :: (interest.cols ++ ["Oil Price"]).map String.data) ++
        '\n' :: unlinesC ((merged_df interest price).rows.map csvRow) := by
  refine ⟨merged_df_cols interest price, ?_, ?_⟩
  · unfold correlation
    rw [merged_df_cols]
    simp
  · rw [to_csv_expand, merged_df_cols]

/-! ## C9, C5, C2: the lag loop -/

/-- The lag-`k` correlation for keyword `kw` as a pure function of the
(unshifted) table: exactly what one iteration of the loop body of lines
85-87 computes from `merged_df`. -/
def lagEntry (f : Frame) (kw : String) (k : ℕ) : Option (ℚ × ℚ × ℚ) :=
  corrEntry (f.setCol (f.cols.indexOf kw) (shiftList k (f.colAt (f.cols.indexOf kw))))
    (f.cols.indexOf kw) (f.cols.indexOf "Oil Price")

theorem lagStep_eq (kw : String) (st : Frame × List (Option (ℚ × ℚ × ℚ)))
    (k : ℕ) : lagStep kw st k = (st.1, st.2 ++ [lagEntry st.1 kw k]) := rfl

theorem foldl_lagStep (kw : String) (f : Frame) :
    ∀ (l : List ℕ) (acc : List (Option (ℚ × ℚ × ℚ))),
      l.foldl (lagStep kw) (f, acc) = (f, acc ++ l.map (lagEntry f kw)) := by
  intro l
  induction l with
  | nil => intro acc; simp
  | cons k t ih =>
    intro acc
    rw [List.foldl_cons, lagStep_eq, ih (acc ++ [lagEntry f kw k])]
    simp

/-- C9: the loop of lines 84-88 operates on a fresh copy each iteration
(`merged_df.copy()`): after all seven iterations the threaded state still
holds the original table unchanged, and the entry recorded for lag `k` is
`lagEntry f kw k`, a function of the original, unshifted table — no shift
is ever applied on top of the previous lag's shift. -/
theorem c9_lag_loop_pure (f : Frame) (kw : String) :
    lagLoop f kw = (f, (List.range' 1 7).map (lagEntry f kw)) ∧
    (lagLoop f kw).1 = f := by
  have h := foldl_lagStep kw f (List.range' 1 7) []
  refine ⟨?_, ?_⟩
  · rw [lagLoop, h]
    simp
  · rw [lagLoop, h]

/-- Pair the cells of two columns row by row, keeping only the rows where
both cells are non-`NaN` (pairwise-complete observations, column view). -/
def pairUp : List Val → List Val → List (ℚ × ℚ)
  | [], _ => []
  | _ :: _, [] => []
  | x :: xs, y :: ys =>
    match x, y with
    | some a, some b => (a, b) :: pairUp xs ys
    | _, _ => pairUp xs ys

theorem pairUp_nil_right : ∀ xs : List Val, pairUp xs [] = [] := by
  intro xs
  cases xs <;> rfl

theorem completePairs_eq_pairUp (f : Frame) (i j : ℕ) :
    completePairs f i j =
      pairUp (f.rows.map (fun r => cellAt r.2 i))
        (f.rows.map (fun r => cellAt r.2 j)) := by
  show f.rows.filterMap _ = _
  induction f.rows with
  | nil => rfl
  | cons r rest ih =>
    rw [List.filterMap_cons, List.map_cons, List.map_cons]
    cases hx : cellAt r.2 i <;> cases hy : cellAt r.2 j <;>
      simp [pairUp, hx, hy, ih]

theorem pairUp_replicate_none (k : ℕ) :
    ∀ (xs ys : List Val),
      pairUp (List.replicate k none ++ xs) ys = pairUp xs (ys.drop k) := by
  induction k with
  | zero =>
    intro xs ys
    simp
  | succ m ih =>
    intro xs ys
    cases ys with
    | nil => rw [List.drop_nil, pairUp_nil_right, pairUp_nil_right]
    | cons y ys' =>
      show pairUp (none :: (List.replicate m none ++ xs)) (y :: ys') = _
      rw [show List.drop (m + 1) (y :: ys') = ys'.drop m from rfl, ← ih xs ys']
      cases y <;> rfl

theorem pairUp_length (xs : List Val) :
    ∀ (ys : List Val), (∀ v ∈ xs, v.isSome) → (∀ v ∈ ys, v.isSome) →
      (pairUp xs ys).length = min xs.length ys.length := by
  induction xs with
  | nil =>
    intro ys _ _
    simp [pairUp]
  | cons x xs' ih =>
    intro ys hx hy
    cases ys with
    | nil => simp [pairUp_nil_right]
    | cons y ys' =>
      obtain ⟨a, rfl⟩ := Option.isSome_iff_exists.1 (hx x (by simp))
      obtain ⟨b, rfl⟩ := Option.isSome_iff_exists.1 (hy y (by simp))
      show ((a, b) :: pairUp xs' ys').length = _
      rw [List.length_cons,
        ih ys' (fun v hv => hx v (by simp [hv])) (fun v hv => hy v (by simp [hv]))]
      simp only [List.length_cons]
      omega

theorem colAt_length (f : Frame) (j : ℕ) : (f.colAt j).length = f.rows.length := by
  simp [Frame.colAt]

theorem colAt_full (f : Frame) (j : ℕ)
    (hL : ∀ r ∈ f.rows, r.2.length = f.cols.length) (hj : j < f.cols.length)
    (hfull : ∀ r ∈ f.rows, ∀ v ∈ r.2, v.isSome) :
    ∀ v ∈ f.colAt j, v.isSome := by
  intro v hv
  rcases List.mem_map.1 hv with ⟨r, hr, rfl⟩
  have hlen : j < r.2.length := by rw [hL r hr]; exact hj
  show ((r.2.get? j).getD none).isSome
  rw [List.get?_eq_getElem?, List.getElem?_eq_getElem hlen]
  exact hfull r hr _ (List.getElem_mem hlen)

theorem map_cellAt_set_self :
    ∀ (rows : List (ℕ × List Val)) (v : List Val) (i : ℕ),
      (∀ r ∈ rows, i < r.2.length) → v.length = rows.length →
      ((rows.zip v).map (fun rv => (rv.1.1, rv.1.2.set i rv.2))).map
        (fun r => cellAt r.2 i) = v := by
  intro rows
  induction rows with
  | nil =>
    intro v i _ hlen
    rw [List.length_nil] at hlen
    rw [List.length_eq_zero] at hlen
    rw [hlen]
    rfl
  | cons r rest ih =>
    intro v i hi hlen
    cases v with
    | nil => simp at hlen
    | cons x vs =>
      show cellAt (r.2.set i x) i :: _ = x :: vs
      congr 1
      · show ((r.2.set i x).get? i).getD none = x
        rw [List.get?_eq_getElem?, List.getElem?_set_eq_of_lt x (hi r (by simp))]
        rfl
      · exact ih vs i (fun a ha => hi a (by simp [ha])) (by simpa using hlen)

theorem map_cellAt_set_ne :
    ∀ (rows : List (ℕ × List Val)) (v : List Val) (i j : ℕ), i ≠ j →
      v.length = rows.length →
      ((rows.zip v).map (fun rv => (rv.1.1, rv.1.2.set i rv.2))).map
        (fun r => cellAt r.2 j) = rows.map (fun r => cellAt r.2 j) := by
  intro rows
  induction rows with
  | nil =>
    intro v i j _ _
    rfl
  | cons r rest ih =>
    intro v i j hij hlen
    cases v with
    | nil => simp at hlen
    | cons x vs =>
      show cellAt (r.2.set i x) j :: _ = cellAt r.2 j :: _
      congr 1
      · show ((r.2.set i x).get? j).getD none = (r.2.get? j).getD none
        rw [List.get?_eq_getElem?, List.get?_eq_getElem?,
          List.getElem?_set_ne hij]
      · exact ih vs i j hij (by simpa using hlen)

theorem shiftList_eq (k : ℕ) (xs : List Val) :
    shiftList k xs =
      List.replicate (min k xs.length) none ++ xs.take (xs.length - k) := by
  unfold shiftList
  rw [List.take_append_eq_append_take, List.take_replicate, List.length_replicate,
    Nat.min_comm]

theorem shiftList_length (k : ℕ) (xs : List Val) :
    (shiftList k xs).length = xs.length := by
  unfold shiftList
  simp

/-- The pairwise-complete row count for the lag-`k` shifted keyword column
against any other fully-populated column: exactly `rowcount − k` rows. -/
theorem completePairs_shift_length (f : Frame) (i j : ℕ)
    (hL : ∀ r ∈ f.rows, r.2.length = f.cols.length)
    (hfull : ∀ r ∈ f.rows, ∀ v ∈ r.2, v.isSome)
    (hi : i < f.cols.length) (hj : j < f.cols.length) (hij : i ≠ j) (k : ℕ) :
    (completePairs (f.setCol i (shiftList k (f.colAt i))) i j).length =
      f.rows.length - k := by
  have hxl : (f.colAt i).length = f.rows.length := colAt_length f i
  have hyl : (f.colAt j).length = f.rows.length := colAt_length f j
  have hrows : ∀ r ∈ f.rows, i < r.2.length := by
    intro r hr
    rw [hL r hr]
    exact hi
  have hslen : (shiftList k (f.colAt i)).length = f.rows.length := by
    rw [shiftList_length, hxl]
  have hrw : completePairs (f.setCol i (shiftList k (f.colAt i))) i j =
      pairUp (shiftList k (f.colAt i)) (f.colAt j) := by
    rw [completePairs_eq_pairUp]
    congr 1
    · exact map_cellAt_set_self f.rows _ i hrows hslen
    · exact map_cellAt_set_ne f.rows _ i j hij hslen
  rw [hrw, shiftList_eq, pairUp_replicate_none]
  rw [pairUp_length _ _
    (fun v hv => colAt_full f i hL hi hfull v (List.mem_of_mem_take hv))
    (fun v hv => colAt_full f j hL hj hfull v (List.mem_of_mem_drop hv))]
  rw [List.length_take, List.length_drop, hxl, hyl]
  omega

/-- Three-row merged-style frame used as witness input for the lag
claims. -/
def lagFrame : Frame :=
  ⟨["a", "Oil Price"],
    [(0, [some 1, some 4]), (1, [some 2, some 5]), (2, [some 3, some 6])]⟩

/-- C5: for each lag `k` in 1..7 (the loop's `range(1, 8)`, so maxLag
defaults to 7), line 86's `shift(k)` assigns the value originally at
position `m − k` to position `m` and turns the leading `k` cells into
`NaN`; the Pearson correlation against `Oil Price` is then taken over
exactly `rowcount − k` pairwise-complete rows; and the output list holds
the lags in order 1..7, its entry at position `k − 1` being the lag-`k`
value. -/
theorem c5_shift_semantics_and_lag_order (f : Frame) (kw : String) (k : ℕ)
    (hL : ∀ r ∈ f.rows, r.2.length = f.cols.length)
    (hfull : ∀ r ∈ f.rows, ∀ v ∈ r.2, v.isSome)
    (hkw : f.cols.indexOf kw < f.cols.length)
    (hop : f.cols.indexOf "Oil Price" < f.cols.length)
    (hne : f.cols.indexOf kw ≠ f.cols.indexOf "Oil Price")
    (hk1 : 1 ≤ k) (hk7 : k ≤ 7) :
    (∀ m, m < k → m < f.rows.length →
      (shiftList k (f.colAt (f.cols.indexOf kw)))[m]? = some none) ∧
    (∀ m, k ≤ m → m < f.rows.length →
      (shiftList k (f.colAt (f.cols.indexOf kw)))[m]? =
        (f.colAt (f.cols.indexOf kw))[m - k]?) ∧
    (completePairs
      (f.setCol (f.cols.indexOf kw)
        (shiftList k (f.colAt (f.cols.indexOf kw))))
      (f.cols.indexOf kw) (f.cols.indexOf "Oil Price")).length =
        f.rows.length - k ∧
    (lagLoop f kw).2 = (List.range' 1 7).map (lagEntry f kw) ∧
    (lagLoop f kw).2[k - 1]? = some (lagEntry f kw k) := by
  have hxl := colAt_length f (f.cols.indexOf kw)
  refine ⟨?_, ?_, ?_, ?_, ?_⟩
  · intro m hmk hmn
    show ((List.replicate k none ++ f.colAt (f.cols.indexOf kw)).take
      (f.colAt (f.cols.indexOf kw)).length)[m]? = some none
    rw [List.getElem?_take, if_pos (by omega), List.getElem?_append,
      if_pos (by simpa using hmk), List.getElem?_replicate, if_pos hmk]
  · intro m hkm hmn
    show ((List.replicate k none ++ f.colAt (f.cols.indexOf kw)).take
      (f.colAt (f.cols.indexOf kw)).length)[m]? = _
    rw [List.getElem?_take, if_pos (by omega), List.getElem?_append,
      if_neg (by simp; omega)]
    simp
  · exact completePairs_shift_length f _ _ hL hfull hkw hop hne k
  · rw [lagLoop, foldl_lagStep kw f _ []]
    simp
  · rw [lagLoop, foldl_lagStep kw f _ []]
    show ((List.range' 1 7).map (lagEntry f kw))[k - 1]? = _
    rw [List.getElem?_map, List.getElem?_range' 1 1 (by omega)]
    simp only [Option.map_some']
    rw [show 1 + 1 * (k - 1) = k by omega]

/-- C5 witness: on the concrete three-row frame with keyword column `a`
and lag 1, the leading cell is `NaN`, the pair count is `3 − 1`, and the
first output entry is the lag-1 value. -/
theorem c5_witness :
    (shiftList 1 (lagFrame.colAt (lagFrame.cols.indexOf "a")))[0]? = some none ∧
    (completePairs
      (lagFrame.setCol (lagFrame.cols.indexOf "a")
        (shiftList 1 (lagFrame.colAt (lagFrame.cols.indexOf "a"))))
      (lagFrame.cols.indexOf "a") (lagFrame.cols.indexOf "Oil Price")).length =
        lagFrame.rows.length - 1 ∧
    (lagLoop lagFrame "a").2[0]? = some (lagEntry lagFrame "a" 1) :=
  ⟨(c5_shift_semantics_and_lag_order lagFrame "a" 1 (by decide) (by decide)
      (by decide) (by decide) (by decide) (by decide) (by decide)).1
        0 (by decide) (by decide),
   (c5_shift_semantics_and_lag_order lagFrame "a" 1 (by decide) (by decide)
      (by decide) (by decide) (by decide) (by decide) (by decide)).2.2.1,
   (c5_shift_semantics_and_lag_order lagFrame "a" 1 (by decide) (by decide)
      (by decide) (by decide) (by decide) (by decide) (by decide)).2.2.2.2⟩

/-- Two-row merged-style frame: every lag 1..7 leaves at most one
overlapping row. -/
def twoRowFrame : Frame :=
  ⟨["a", "Oil Price"], [(0, [some 1, some 4]), (1, [some 2, some 5])]⟩

/-- C2 counterexample: with 2 aligned rows every lag 1..7 leaves fewer
than 2 overlapping rows, yet no `InsufficientRowsError` exists and nothing
fails: the loop of lines 82-89 completes and silently records `NaN`
(`none`) for every lag. -/
theorem c2_counterexample :
    lagLoop twoRowFrame "a" =
      (twoRowFrame, [none, none, none, none, none, none, none]) :=
  of_decide_eq_true (by with_unfolding_all rfl)

/-- C2 (amended): when fewer than 2 overlapping rows remain for lag `k`
(in particular whenever `k ≥` the aligned row count), the code raises no
error: `DataFrame.corr` yields `NaN` and the loop records the silent
`none` marker for that lag. -/
theorem c2_insufficient_rows_silent_nan (f : Frame) (kw : String) (k : ℕ)
    (hL : ∀ r ∈ f.rows, r.2.length = f.cols.length)
    (hfull : ∀ r ∈ f.rows, ∀ v ∈ r.2, v.isSome)
    (hkw : f.cols.indexOf kw < f.cols.length)
    (hop : f.cols.indexOf "Oil Price" < f.cols.length)
    (hne : f.cols.indexOf kw ≠ f.cols.indexOf "Oil Price")
    (hk1 : 1 ≤ k) (hk7 : k ≤ 7) (hshort : f.rows.length ≤ k + 1) :
    lagEntry f kw k = none ∧ (lagLoop f kw).2[k - 1]? = some none := by
  have hlen := completePairs_shift_length f (f.cols.indexOf kw)
    (f.cols.indexOf "Oil Price") hL hfull hkw hop hne k
  have hent : lagEntry f kw k = none := by
    unfold lagEntry corrEntry
    apply pearsonO_eq_none_of_short
    rw [hlen]
    omega
  refine ⟨hent, ?_⟩
  rw [lagLoop, foldl_lagStep kw f _ []]
  show ((List.range' 1 7).map (lagEntry f kw))[k - 1]? = some none
  rw [List.getElem?_map, List.getElem?_range' 1 1 (by omega)]
  simp only [Option.map_some']
  rw [show 1 + 1 * (k - 1) = k by omega, hent]

/-- C2 witness: on the three-row frame, lag 7 leaves `3 − 7 = 0`
overlapping rows and the recorded seventh entry is the silent `none`. -/
theorem c2_witness :
    lagEntry lagFrame "a" 7 = none ∧ (lagLoop lagFrame "a").2[6]? = some none :=
  c2_insufficient_rows_silent_nan lagFrame "a" 7 (by decide) (by decide)
    (by decide) (by decide) (by decide) (by decide) (by decide) (by decide)

/-! ## C7: resample-mean and forward-fill semantics -/

theorem ffillRow_length (vs carry : List Val) :
    (ffillRow vs carry).length = min vs.length carry.length := by
  unfold ffillRow
  simp

theorem cellAt_ffillRow (vs carry : List Val) (j : ℕ) (h1 : j < vs.length)
    (h2 : j < carry.length) :
    cellAt (ffillRow vs carry) j =
      (cellAt vs j).orElse (fun _ => cellAt carry j) := by
  unfold ffillRow cellAt
  rw [List.get?_eq_getElem?, List.get?_eq_getElem?, List.get?_eq_getElem?,
    List.getElem?_zipWith', List.getElem?_eq_getElem h1,
    List.getElem?_eq_getElem h2]
  rfl

theorem cellAt_replicate_none (L j : ℕ) :
    cellAt (List.replicate L (none : Val)) j = none := by
  unfold cellAt
  rw [List.get?_eq_getElem?, List.getElem?_replicate]
  split <;> rfl

theorem ffillRows_cons (carry : List Val) (r : ℕ × List Val)
    (rest : List (ℕ × List Val)) :
    ffillRows carry (r :: rest) =
      (r.1, ffillRow r.2 carry) :: ffillRows (ffillRow r.2 carry) rest := rfl

/-- The forward-filled column at row `m` is the fold of the raw column's
prefix up to `m`, started from the incoming carry: the most recent
non-`NaN` value at or before `m`. -/
theorem ffillRows_colAt_char :
    ∀ (rows : List (ℕ × List Val)) (carry : List Val) (L j m : ℕ),
      (∀ r ∈ rows, r.2.length = L) → carry.length = L → j < L →
      m < rows.length →
      ((ffillRows carry rows).map (fun r => cellAt r.2 j))[m]? =
        some (((rows.map (fun r => cellAt r.2 j)).take (m + 1)).foldl
          (fun acc v => v.orElse (fun _ => acc)) (cellAt carry j)) := by
  intro rows
  induction rows with
  | nil =>
    intro carry L j m _ _ _ hm
    simp at hm
  | cons r rest ih =>
    intro carry L j m hL hc hj hm
    have hrL : r.2.length = L := hL r (by simp)
    have hfc : cellAt (ffillRow r.2 carry) j =
        (cellAt r.2 j).orElse (fun _ => cellAt carry j) :=
      cellAt_ffillRow r.2 carry j (by omega) (by omega)
    have hflen : (ffillRow r.2 carry).length = L := by
      rw [ffillRow_length, hrL, hc]
      omega
    rw [ffillRows_cons]
    cases m with
    | zero =>
      rw [List.map_cons, List.getElem?_cons_zero, hfc, List.map_cons,
        List.take_succ_cons, List.take_zero, List.foldl_cons, List.foldl_nil]
    | succ m' =>
      rw [List.map_cons, List.getElem?_cons_succ,
        ih (ffillRow r.2 carry) L j m' (fun a ha => hL a (by simp [ha]))
          hflen hj (by simpa using hm),
        hfc, List.map_cons, List.take_succ_cons, List.foldl_cons]

theorem resampleB_row_lengths (f : Frame) :
    ∀ r ∈ (resampleB f).rows, r.2.length = f.cols.length := by
  intro r h
  unfold resampleB at h
  split at h
  · simp at h
  · rcases List.mem_map.1 h with ⟨b, _, rfl⟩
    simp

/-- Each resampled row sits on a business day and each of its cells is the
skip-`NaN` mean of the raw cells whose timestamps bin to that day. -/
theorem resampleB_rows_char (f : Frame) (j : ℕ) (hj : j < f.cols.length) :
    ∀ r ∈ (resampleB f).rows, isBDay r.1 ∧
      cellAt r.2 j =
        meanQ ((f.rows.filter (fun x => binOf x.1 = r.1)).filterMap
          (fun x => cellAt x.2 j)) := by
  intro r h
  unfold resampleB at h
  split at h
  · simp at h
  · rcases List.mem_map.1 h with ⟨b, hb, rfl⟩
    refine ⟨List.of_mem_filter hb, ?_⟩
    show cellAt ((List.range f.cols.length).map _) j = _
    unfold cellAt
    rw [List.get?_eq_getElem?, List.getElem?_map, List.getElem?_range hj]
    rfl

/-- C7: line 67's `resample('B').mean().fillna(method='ffill')`:
(i) forward fill — the value of the filled column at row `m` is the fold of
the resampled column's prefix up to `m` starting from `none`, i.e. the most
recent known value at or before `m`, never a value from a later row, and
still `none` (unfilled) when no known value precedes; (ii) mean
aggregation — every resampled cell is the mean of the raw points falling in
its business-day bin. -/
theorem c7_ffill_carries_forward_and_mean_bins (interest : Frame) (j m : ℕ)
    (hj : j < interest.cols.length)
    (hm : m < (resampleB interest).rows.length) :
    ((trends interest).colAt j)[m]? =
      some ((((resampleB interest).colAt j).take (m + 1)).foldl
        (fun acc v => v.orElse (fun _ => acc)) none) ∧
    (∀ r ∈ (resampleB interest).rows, isBDay r.1 ∧
      cellAt r.2 j =
        meanQ ((interest.rows.filter (fun x => binOf x.1 = r.1)).filterMap
          (fun x => cellAt x.2 j))) := by
  constructor
  · have hjc : j < (resampleB interest).cols.length := by
      rw [resampleB_cols]
      exact hj
    have := ffillRows_colAt_char (resampleB interest).rows
      (List.replicate (resampleB interest).cols.length none)
      (resampleB interest).cols.length j m
      (fun r hr => by rw [resampleB_cols]; exact resampleB_row_lengths interest r hr)
      (by simp) hjc hm
    rw [cellAt_replicate_none] at this
    exact this
  · exact resampleB_rows_char interest j hj

/-! ## C4: no nulls after alignment -/

theorem isBDay_binOf (d : ℕ) : isBDay (binOf d) = true := by
  simp only [isBDay, binOf, decide_eq_true_eq]
  split
  · omega
  · omega

theorem binOf_mono {d e : ℕ} (h : d ≤ e) : binOf d ≤ binOf e := by
  unfold binOf
  split <;> split <;> omega

theorem getLastD_mem_cons : ∀ (l : List (ℕ × List Val)) (d : ℕ × List Val),
    l.getLastD d ∈ d :: l := by
  intro l
  induction l with
  | nil =>
    intro d
    simp
  | cons a t ih =>
    intro d
    have h1 : (a :: t).getLastD d = t.getLastD a := by
      cases t <;> rfl
    rw [h1]
    have := ih a
    rcases List.mem_cons.1 this with h | h
    · rw [h]
      simp
    · exact List.mem_cons_of_mem d (List.mem_cons_of_mem a h)

theorem first_le_lastD (r0 : ℕ × List Val) (rest : List (ℕ × List Val))
    (hmono : List.Pairwise (fun a b => a.1 ≤ b.1) (r0 :: rest)) :
    r0.1 ≤ ((r0 :: rest).getLastD r0).1 := by
  have h1 : (r0 :: rest).getLastD r0 = rest.getLastD r0 := by
    cases rest <;> rfl
  rw [h1]
  have hmem := getLastD_mem_cons rest r0
  rcases List.mem_cons.1 hmem with h | h
  · rw [h]
  · exact (List.pairwise_cons.1 hmono).1 _ h

theorem meanQ_isSome (xs : List ℚ) (h : xs ≠ []) : (meanQ xs).isSome := by
  unfold meanQ
  rw [if_neg h]
  rfl

/-- The first resampled row: its date is the bin of the first raw
timestamp, and its cells are the bin means over that first bin. -/
theorem resampleB_head (f : Frame) (r0 : ℕ × List Val)
    (rest : List (ℕ × List Val)) (hr : f.rows = r0 :: rest)
    (hlast : binOf r0.1 ≤ binOf ((r0 :: rest).getLastD r0).1) :
    (resampleB f).rows.head? = some (binOf r0.1,
      (List.range f.cols.length).map (fun j =>
        meanQ (((r0 :: rest).filter (fun r => binOf r.1 = binOf r0.1)).filterMap
          (fun r => cellAt r.2 j)))) := by
  unfold resampleB
  rw [hr]
  show (((List.range' (binOf r0.1)
    (binOf ((r0 :: rest).getLastD r0).1 + 1 - binOf r0.1)).filter
      (fun d => isBDay d)).map _).head? = _
  obtain ⟨n, hn⟩ : ∃ n,
      binOf ((r0 :: rest).getLastD r0).1 + 1 - binOf r0.1 = n + 1 :=
    ⟨binOf ((r0 :: rest).getLastD r0).1 - binOf r0.1, by omega⟩
  rw [hn, List.range'_succ, List.filter_cons_of_pos (isBDay_binOf r0.1),
    List.map_cons, List.head?_cons]

theorem resampleB_dates_bday (f : Frame) :
    ∀ r ∈ (resampleB f).rows, isBDay r.1 = true := by
  intro r h
  unfold resampleB at h
  split at h
  · simp at h
  · rcases List.mem_map.1 h with ⟨b, hb, rfl⟩
    exact List.of_mem_filter hb

theorem ffillRow_full_left (vs : List Val) :
    ∀ (carry : List Val), (∀ v ∈ vs, v.isSome) →
      ∀ v ∈ ffillRow vs carry, v.isSome := by
  induction vs with
  | nil =>
    intro carry _ v hv
    simp [ffillRow] at hv
  | cons x vs' ih =>
    intro carry hf v hv
    cases carry with
    | nil => simp [ffillRow] at hv
    | cons c cs =>
      rcases List.mem_cons.1 hv with h | h
      · obtain ⟨a, rfl⟩ := Option.isSome_iff_exists.1 (hf x (by simp))
        rw [h]
        rfl
      · exact ih cs (fun w hw => hf w (by simp [hw])) v h

theorem ffillRow_full_carry (vs : List Val) :
    ∀ (carry : List Val), (∀ v ∈ carry, v.isSome) →
      ∀ v ∈ ffillRow vs carry, v.isSome := by
  induction vs with
  | nil =>
    intro carry _ v hv
    simp [ffillRow] at hv
  | cons x vs' ih =>
    intro carry hc v hv
    cases carry with
    | nil => simp [ffillRow] at hv
    | cons c cs =>
      rcases List.mem_cons.1 hv with h | h
      · rw [h]
        cases x with
        | some a => rfl
        | none =>
          show (Option.orElse none (fun _ => c)).isSome
          have := hc c (by simp)
          cases c with
          | some b => rfl
          | none => simp at this
      · exact ih cs (fun w hw => hc w (by simp [hw])) v h

theorem ffillRows_full_of_carry :
    ∀ (rows : List (ℕ × List Val)) (carry : List Val),
      (∀ v ∈ carry, v.isSome) →
      ∀ r ∈ ffillRows carry rows, ∀ v ∈ r.2, v.isSome := by
  intro rows
  induction rows with
  | nil =>
    intro carry _ r hr
    simp [ffillRows] at hr
  | cons r0 rest ih =>
    intro carry hc r hr
    rw [ffillRows_cons] at hr
    have hfull0 : ∀ v ∈ ffillRow r0.2 carry, v.isSome :=
      ffillRow_full_carry r0.2 carry hc
    rcases List.mem_cons.1 hr with h | h
    · rw [h]
      exact hfull0
    · exact ih (ffillRow r0.2 carry) hfull0 r h

theorem ffillRows_dates :
    ∀ (rows : List (ℕ × List Val)) (carry : List Val),
      (ffillRows carry rows).map Prod.fst = rows.map Prod.fst := by
  intro rows
  induction rows with
  | nil => intro carry; rfl
  | cons r0 rest ih =>
    intro carry
    rw [ffillRows_cons, List.map_cons, List.map_cons, ih (ffillRow r0.2 carry)]

theorem mem_mergeClose_rows (t : Frame) (price : List (ℕ × ℚ))
    (r : ℕ × List Val) (h : r ∈ (mergeClose t price).rows) :
    ∃ a ∈ t.rows, ∃ q, priceAt price a.1 = some q ∧
      r = (a.1, a.2 ++ [some q]) := by
  rcases List.mem_filterMap.1 h with ⟨a, ha, hg⟩
  cases hp : priceAt price a.1 with
  | none => rw [hp] at hg; simp at hg
  | some q =>
    rw [hp] at hg
    simp only [Option.some.injEq] at hg
    exact ⟨a, ha, q, hp, hg.symm⟩

/-- A nonempty, fully-populated, chronologically sorted interest input
leaves no `NaN` anywhere after `resample('B').mean().fillna('ffill')`: the
first bin is nonempty, so the forward fill has a value to carry from the
very first row on. -/
theorem trends_rows_full (interest : Frame) (hne : interest.rows ≠ [])
    (hL : ∀ r ∈ interest.rows, r.2.length = interest.cols.length)
    (hfull : ∀ r ∈ interest.rows, ∀ v ∈ r.2, v.isSome)
    (hmono : List.Pairwise (fun a b => a.1 ≤ b.1) interest.rows) :
    ∀ r ∈ (trends interest).rows, ∀ v ∈ r.2, v.isSome := by
  rcases hrows : interest.rows with _ | ⟨r0, rest⟩
  · exact absurd hrows hne
  have hmono' := hrows ▸ hmono
  have hlast : binOf r0.1 ≤ binOf ((r0 :: rest).getLastD r0).1 :=
    binOf_mono (first_le_lastD r0 rest hmono')
  have hhead := resampleB_head interest r0 rest hrows hlast
  rcases hR : (resampleB interest).rows with _ | ⟨h0, tR⟩
  · rw [hR] at hhead
    simp at hhead
  rw [hR] at hhead
  simp only [List.head?_cons, Option.some.injEq] at hhead
  have hh0full : ∀ v ∈ h0.2, v.isSome := by
    intro v hv
    have hv2 : v ∈ (List.range interest.cols.length).map (fun j =>
        meanQ (((r0 :: rest).filter (fun r => binOf r.1 = binOf r0.1)).filterMap
          (fun r => cellAt r.2 j))) := by
      rw [hhead] at hv
      exact hv
    rcases List.mem_map.1 hv2 with ⟨j, hj, rfl⟩
    apply meanQ_isSome
    have hjlt : j < interest.cols.length := List.mem_range.1 hj
    have hr0mem : r0 ∈ interest.rows := by
      rw [hrows]
      simp
    have hjr0 : j < r0.2.length := by
      rw [hL r0 hr0mem]
      exact hjlt
    obtain ⟨a, hcell⟩ : ∃ a, cellAt r0.2 j = some a := by
      apply Option.isSome_iff_exists.1
      show ((r0.2.get? j).getD none).isSome
      rw [List.get?_eq_getElem?, List.getElem?_eq_getElem hjr0]
      exact hfull r0 hr0mem _ (List.getElem_mem hjr0)
    have hr0f : r0 ∈ (r0 :: rest).filter (fun r => binOf r.1 = binOf r0.1) :=
      List.mem_filter.2 ⟨by simp, by simp⟩
    exact List.ne_nil_of_mem (List.mem_filterMap.2 ⟨r0, hr0f, hcell⟩)
  intro r hr
  have htr : (trends interest).rows =
      ffillRows (List.replicate (resampleB interest).cols.length none)
        (h0 :: tR) := by
    show ffillRows _ (resampleB interest).rows = _
    rw [hR]
  rw [htr, ffillRows_cons] at hr
  have hfull0 : ∀ v ∈ ffillRow h0.2
      (List.replicate (resampleB interest).cols.length none), v.isSome :=
    ffillRow_full_left h0.2 _ hh0full
  rcases List.mem_cons.1 hr with h | h
  · rw [h]
    exact hfull0
  · exact ffillRows_full_of_carry tR _ hfull0 r h

/-- C4: for a nonempty, fully-populated, chronologically sorted interest
input, every row kept by the alignment of lines 67-68 has only non-`NaN`
cells (forward fill has a first-bin value to carry, and the appended price
cell is the matched close), its timestamp is a business day, and that
timestamp occurs in the price series. -/
theorem c4_merged_rows_nonnull_on_price_days (interest : Frame)
    (price : List (ℕ × ℚ)) (hne : interest.rows ≠ [])
    (hL : ∀ r ∈ interest.rows, r.2.length = interest.cols.length)
    (hfull : ∀ r ∈ interest.rows, ∀ v ∈ r.2, v.isSome)
    (hmono : List.Pairwise (fun a b => a.1 ≤ b.1) interest.rows) :
    ∀ r ∈ (merged_df interest price).rows,
      (∀ v ∈ r.2, v.isSome) ∧ isBDay r.1 = true ∧
        r.1 ∈ price.map Prod.fst := by
  intro r hr
  rcases mem_mergeClose_rows (trends interest) price r hr with ⟨a, ha, q, hpq, rfl⟩
  refine ⟨?_, ?_, ?_⟩
  · intro v hv
    rcases List.mem_append.1 hv with hv1 | hv2
    · exact trends_rows_full interest hne hL hfull hmono a ha v hv1
    · rw [List.mem_singleton.1 hv2]
      rfl
  · have hdates : (trends interest).rows.map Prod.fst =
        (resampleB interest).rows.map Prod.fst :=
      ffillRows_dates (resampleB interest).rows _
    have hmem : a.1 ∈ (resampleB interest).rows.map Prod.fst := by
      rw [← hdates]
      exact List.mem_map.2 ⟨a, ha, rfl⟩
    rcases List.mem_map.1 hmem with ⟨b, hb, hab⟩
    rw [← hab]
    exact resampleB_dates_bday interest b hb
  · rw [← priceAt_isSome_iff, hpq]
    rfl

/-- Interest frame with a calendar gap: raw points on days 0 and 4 only,
so days 1-3 are empty bins filled by the forward fill. -/
def gapFrame : Frame := ⟨["crude oil"], [(0, [some 10]), (4, [some 30])]⟩

/-- Price series on days 0, 1 and 4. -/
def wPrice : List (ℕ × ℚ) := [(0, 50), (1, 51), (4, 54)]

/-- C4 witness: the theorem applied to the gap frame and the three-day
price series, instantiated at the merged row for day 1 (whose interest
cell was forward-filled). -/
theorem c4_witness :
    Option.isSome (some (10 : ℚ)) = true ∧
    isBDay 1 = true ∧ (1 : ℕ) ∈ wPrice.map Prod.fst :=
  have h := c4_merged_rows_nonnull_on_price_days gapFrame wPrice (by decide)
    (by decide) (by decide) (by decide) ((1 : ℕ), [some (10 : ℚ), some 51])
    (of_decide_eq_true (by with_unfolding_all rfl))
  ⟨h.1 (some 10) (by decide), h.2.1, h.2.2⟩

/-- C7 witness: on the gap frame, the forward-filled column at row 2
(day 2, an empty bin) is the fold of the resampled prefix. -/
theorem c7_witness :
    ((trends gapFrame).colAt 0)[2]? =
      some ((((resampleB gapFrame).colAt 0).take 3).foldl
        (fun acc v => v.orElse (fun _ => acc)) none) :=
  (c7_ffill_carries_forward_and_mean_bins gapFrame 0 2 (by decide)
    (of_decide_eq_true (by with_unfolding_all rfl))).1

/-! ## C10: CSV round trip -/

theorem digitVal_digitChar (d : ℕ) (h : d < 10) :
    digitVal (digitChar d) = d := by
  interval_cases d <;> decide

theorem isDig_digitChar (d : ℕ) (h : d < 10) : isDig (digitChar d) = true := by
  interval_cases d <;> decide

theorem natDigits_ne_nil (n : ℕ) : natDigits n ≠ [] := by
  rw [natDigits_eq]
  rcases Nat.lt_or_ge n 10 with h10 | h10
  · rw [if_pos h10]
    simp
  · rw [if_neg (by omega)]
    simp

theorem natDigits_all_dig (n : ℕ) : ∀ c ∈ natDigits n, isDig c = true := by
  induction n using Nat.strong_induction_on with
  | _ n ih =>
    rw [natDigits_eq]
    rcases Nat.lt_or_ge n 10 with h10 | h10
    · rw [if_pos h10]
      intro c hc
      rw [List.mem_singleton.1 hc]
      exact isDig_digitChar n h10
    · rw [if_neg (by omega)]
      intro c hc
      rcases List.mem_append.1 hc with h | h
      · exact ih (n / 10) (Nat.div_lt_self (by omega) (by omega)) c h
      · rw [List.mem_singleton.1 h]
        exact isDig_digitChar (n % 10) (by omega)

theorem parseDigits_append_singleton (cs : List Char) (c : Char) :
    parseDigits (cs ++ [c]) = parseDigits cs * 10 + digitVal c := by
  unfold parseDigits
  rw [List.foldl_append]
  rfl

theorem parseDigits_natDigits (n : ℕ) : parseDigits (natDigits n) = n := by
  induction n using Nat.strong_induction_on with
  | _ n ih =>
    rcases Nat.lt_or_ge n 10 with h10 | h10
    · rw [natDigits_eq, if_pos h10]
      show parseDigits [digitChar n] = n
      unfold parseDigits
      rw [List.foldl_cons, List.foldl_nil]
      rw [digitVal_digitChar n h10]
      omega
    · rw [natDigits_eq, if_neg (by omega), parseDigits_append_singleton,
        ih (n / 10) (Nat.div_lt_self (by omega) (by omega)),
        digitVal_digitChar (n % 10) (by omega)]
      omega

theorem parseNat_natDigits (n : ℕ) : parseNat (natDigits n) = some n := by
  unfold parseNat
  rw [if_pos ⟨natDigits_ne_nil n, List.all_eq_true.2 (natDigits_all_dig n)⟩,
    parseDigits_natDigits]

theorem isDig_not_special (c : Char) (h : isDig c = true) :
    c ≠ ',' ∧ c ≠ '\n' ∧ c ≠ '/' ∧ c ≠ '-' := by
  refine ⟨?_, ?_, ?_, ?_⟩ <;> (intro h1; rw [h1] at h; revert h; decide)

theorem renderQ_chars (q : ℚ) :
    ∀ c ∈ renderQ q, isDig c = true ∨ c = '-' ∨ c = '/' := by
  intro c hc
  unfold renderQ at hc
  rcases List.mem_append.1 hc with h | h
  · rcases List.mem_append.1 h with h1 | h1
    · split at h1
      · rw [List.mem_singleton.1 h1]
        right
        left
        rfl
      · simp at h1
    · exact Or.inl (natDigits_all_dig _ c h1)
  · split at h
    · simp at h
    · rcases List.mem_cons.1 h with h2 | h2
      · exact Or.inr (Or.inr h2)
      · exact Or.inl (natDigits_all_dig _ c h2)

theorem renderQ_ne_nil (q : ℚ) : renderQ q ≠ [] := by
  unfold renderQ
  intro h
  rcases List.append_eq_nil.1 h with ⟨h1, _⟩
  rcases List.append_eq_nil.1 h1 with ⟨_, h3⟩
  exact natDigits_ne_nil _ h3

theorem renderQ_no_sep (q : ℚ) : ∀ c ∈ renderQ q, c ≠ ',' ∧ c ≠ '\n' := by
  intro c hc
  rcases renderQ_chars q c hc with h | h | h
  · exact ⟨(isDig_not_special c h).1, (isDig_not_special c h).2.1⟩
  · rw [h]
    exact ⟨by decide, by decide⟩
  · rw [h]
    exact ⟨by decide, by decide⟩

theorem renderCell_no_sep (v : Val) : ∀ c ∈ renderCell v, c ≠ ',' ∧ c ≠ '\n' := by
  intro c hc
  cases v with
  | none => simp [renderCell] at hc
  | some q => exact renderQ_no_sep q c hc

theorem natDigits_no_sep (n : ℕ) : ∀ c ∈ natDigits n, c ≠ ',' ∧ c ≠ '\n' := by
  intro c hc
  have h := natDigits_all_dig n c hc
  exact ⟨(isDig_not_special c h).1, (isDig_not_special c h).2.1⟩

theorem splitOnChar_cons_sep (sep : Char) (cs : List Char) :
    splitOnChar sep (sep :: cs) = [] :: splitOnChar sep cs := by
  simp [splitOnChar]

theorem splitOnChar_cons_ne (sep c : Char) (cs : List Char) (h : c ≠ sep) :
    splitOnChar sep (c :: cs) =
      match splitOnChar sep cs with
      | [] => [[c]]
      | f :: rest => (c :: f) :: rest := by
  simp only [splitOnChar]
  rw [if_neg h]

theorem splitOnChar_no_sep (sep : Char) :
    ∀ cs : List Char, (∀ c ∈ cs, c ≠ sep) → splitOnChar sep cs = [cs] := by
  intro cs
  induction cs with
  | nil => intro _; rfl
  | cons c cs' ih =>
    intro h
    rw [splitOnChar_cons_ne sep c cs' (h c (by simp)),
      ih (fun x hx => h x (by simp [hx]))]

theorem splitOnChar_append_sep (sep : Char) :
    ∀ (x y : List Char), (∀ c ∈ x, c ≠ sep) →
      splitOnChar sep (x ++ sep :: y) = x :: splitOnChar sep y := by
  intro x
  induction x with
  | nil =>
    intro y _
    exact splitOnChar_cons_sep sep y
  | cons c x' ih =>
    intro y h
    show splitOnChar sep (c :: (x' ++ sep :: y)) = _
    rw [splitOnChar_cons_ne sep c _ (h c (by simp)),
      ih y (fun a ha => h a (by simp [ha]))]

theorem splitOnChar_unlinesC :
    ∀ ls : List (List Char), (∀ l ∈ ls, ∀ c ∈ l, c ≠ '\n') →
      splitOnChar '\n' (unlinesC ls) = ls ++ [[]] := by
  intro ls
  induction ls with
  | nil => intro _; rfl
  | cons l rest ih =>
    intro h
    show splitOnChar '\n' (l ++ '\n' :: unlinesC rest) = _
    rw [splitOnChar_append_sep '\n' l _ (h l (by simp)),
      ih (fun a ha => h a (by simp [ha]))]
    rfl

theorem splitOnChar_joinSep (sep : Char) :
    ∀ l : List (List Char), (∀ x ∈ l, ∀ c ∈ x, c ≠ sep) →
      splitOnChar sep (joinSep sep l) = if l = [] then [[]] else l := by
  intro l
  induction l with
  | nil => intro _; rfl
  | cons x rest ih =>
    intro h
    rw [if_neg (by simp)]
    cases rest with
    | nil => exact splitOnChar_no_sep sep x (h x (by simp))
    | cons y rs =>
      show splitOnChar sep (x ++ sep :: joinSep sep (y :: rs)) = _
      rw [splitOnChar_append_sep sep x _ (h x (by simp)),
        ih (fun a ha => h a (by simp [ha])), if_neg (by simp)]

theorem mem_joinSep (sep : Char) :
    ∀ (l : List (List Char)) (c : Char),
      c ∈ joinSep sep l → c = sep ∨ ∃ x ∈ l, c ∈ x := by
  intro l
  induction l with
  | nil =>
    intro c hc
    simp [joinSep] at hc
  | cons x rest ih =>
    intro c hc
    cases rest with
    | nil => exact Or.inr ⟨x, by simp, hc⟩
    | cons y rs =>
      rw [show joinSep sep (x :: y :: rs) = x ++ sep :: joinSep sep (y :: rs)
        from rfl] at hc
      rcases List.mem_append.1 hc with h | h
      · exact Or.inr ⟨x, by simp, h⟩
      · rcases List.mem_cons.1 h with h1 | h1
        · exact Or.inl h1
        · rcases ih c h1 with h2 | ⟨z, hz, hcz⟩
          · exact Or.inl h2
          · exact Or.inr ⟨z, by simp [hz], hcz⟩

theorem splitOnChar_natDigits_slash (n : ℕ) :
    splitOnChar '/' (natDigits n) = [natDigits n] :=
  splitOnChar_no_sep '/' (natDigits n)
    (fun c hc => (isDig_not_special c (natDigits_all_dig n c hc)).2.2.1)

theorem parseQPos_eq_single (cs ds : List Char)
    (h : splitOnChar '/' cs = [ds]) :
    parseQPos cs = (parseNat ds).map (fun n => (n : ℚ)) := by
  unfold parseQPos
  rw [h]

theorem parseQPos_eq_pair (cs ns ds : List Char)
    (h : splitOnChar '/' cs = [ns, ds]) :
    parseQPos cs =
      match parseNat ns, parseNat ds with
      | some n, some d => some ((n : ℚ) / (d : ℚ))
      | _, _ => none := by
  unfold parseQPos
  rw [h]

theorem parseQPos_renderQ_body (q : ℚ) :
    parseQPos (natDigits q.num.natAbs ++
      (if q.den = 1 then [] else '/' :: natDigits q.den)) =
      some ((q.num.natAbs : ℚ) / (q.den : ℚ)) := by
  by_cases hden : q.den = 1
  · rw [if_pos hden, List.append_nil,
      parseQPos_eq_single _ _ (splitOnChar_natDigits_slash _),
      parseNat_natDigits, hden]
    simp
  · rw [if_neg hden,
      parseQPos_eq_pair _ _ _ (by
        rw [splitOnChar_append_sep '/' _ _
          (fun c hc => (isDig_not_special c (natDigits_all_dig _ c hc)).2.2.1),
          splitOnChar_natDigits_slash]),
      parseNat_natDigits, parseNat_natDigits]

theorem parseQ_cons (c : Char) (rest : List Char) :
    parseQ (c :: rest) = if c = '-' then (parseQPos rest).map (fun x => -x)
      else parseQPos (c :: rest) := rfl

theorem parseQ_renderQ (q : ℚ) : parseQ (renderQ q) = some q := by
  have habs : ((q.num.natAbs : ℚ) / (q.den : ℚ)) = |(q.num : ℚ)| / (q.den : ℚ) := by
    rw [Int.cast_natAbs, Int.cast_abs]
  by_cases hneg : q.num < 0
  · have hr : renderQ q = '-' :: (natDigits q.num.natAbs ++
        (if q.den = 1 then [] else '/' :: natDigits q.den)) := by
      unfold renderQ
      rw [if_pos hneg]
      rfl
    rw [hr, parseQ_cons, if_pos rfl, parseQPos_renderQ_body]
    show some (-((q.num.natAbs : ℚ) / (q.den : ℚ))) = some q
    rw [habs, abs_of_neg (by exact_mod_cast hneg), neg_div, neg_neg,
      Rat.num_div_den]
  · have hr : renderQ q = natDigits q.num.natAbs ++
        (if q.den = 1 then [] else '/' :: natDigits q.den) := by
      unfold renderQ
      rw [if_neg hneg]
      rfl
    rcases hnd : natDigits q.num.natAbs with _ | ⟨c0, cr⟩
    · exact absurd hnd (natDigits_ne_nil _)
    have hc0 : c0 ≠ '-' := by
      have : isDig c0 = true := natDigits_all_dig _ c0 (by rw [hnd]; simp)
      exact (isDig_not_special c0 this).2.2.2
    rw [hr, hnd, List.cons_append, parseQ_cons, if_neg hc0,
      ← List.cons_append, ← hnd, parseQPos_renderQ_body, habs,
      abs_of_nonneg (by exact_mod_cast not_lt.1 hneg), Rat.num_div_den]

theorem parseCell_renderCell (v : Val) : parseCell (renderCell v) = some v := by
  cases v with
  | none => rfl
  | some q =>
    show parseCell (renderQ q) = some (some q)
    rcases hnd : renderQ q with _ | ⟨c, cs⟩
    · exact absurd hnd (renderQ_ne_nil q)
    · show (parseQ (c :: cs)).map some = some (some q)
      rw [← hnd, parseQ_renderQ q]
      rfl

theorem mapM_parseCell_renderCell :
    ∀ vs : List Val, (vs.map renderCell).mapM parseCell = some vs := by
  intro vs
  induction vs with
  | nil => rfl
  | cons v vs' ih =>
    rw [List.map_cons, List.mapM_cons, parseCell_renderCell, ih]
    rfl

theorem csvRow_no_newline (r : ℕ × List Val) : ∀ c ∈ csvRow r, c ≠ '\n' := by
  intro c hc
  rcases mem_joinSep ',' _ c hc with h | ⟨x, hx, hcx⟩
  · rw [h]
    decide
  · rcases List.mem_cons.1 hx with h1 | h1
    · exact (natDigits_no_sep r.1 c (h1 ▸ hcx)).2
    · rcases List.mem_map.1 h1 with ⟨v, _, rfl⟩
      exact (renderCell_no_sep v c hcx).2

theorem parseRow_csvRow (r : ℕ × List Val) : parseRow (csvRow r) = some r := by
  unfold parseRow csvRow
  rw [splitOnChar_joinSep ',' _ (by
      intro x hx c hc
      rcases List.mem_cons.1 hx with h1 | h1
      · exact (natDigits_no_sep r.1 c (h1 ▸ hc)).1
      · rcases List.mem_map.1 h1 with ⟨v, _, rfl⟩
        exact (renderCell_no_sep v c hc).1),
    if_neg (by simp)]
  simp only [parseNat_natDigits, mapM_parseCell_renderCell]

theorem mapM_parseRow_csvRow :
    ∀ rows : List (ℕ × List Val), (rows.map csvRow).mapM parseRow = some rows := by
  intro rows
  induction rows with
  | nil => rfl
  | cons r rest ih =>
    rw [List.map_cons, List.mapM_cons, parseRow_csvRow, ih]
    rfl

theorem header_no_newline (idxName : String) (cols : List String)
    (hname : ∀ c ∈ idxName.data, c ≠ ',' ∧ c ≠ '\n')
    (hcols : ∀ s ∈ cols, ∀ c ∈ s.data, c ≠ ',' ∧ c ≠ '\n') :
    ∀ c ∈ joinSep ',' (idxName.data :: cols.map String.data), c ≠ '\n' := by
  intro c hc
  rcases mem_joinSep ',' _ c hc with h | ⟨x, hx, hcx⟩
  · rw [h]
    decide
  · rcases List.mem_cons.1 hx with h1 | h1
    · exact (hname c (h1 ▸ hcx)).2
    · rcases List.mem_map.1 h1 with ⟨s, hs, rfl⟩
      exact (hcols s hs c hcx).2

theorem parseCsv_to_csv (idxName : String) (f : Frame)
    (hname : ∀ c ∈ idxName.data, c ≠ ',' ∧ c ≠ '\n')
    (hcols : ∀ s ∈ f.cols, ∀ c ∈ s.data, c ≠ ',' ∧ c ≠ '\n') :
    parseCsv (to_csv idxName f) = some (idxName, f) := by
  unfold parseCsv to_csv
  rw [splitOnChar_unlinesC _ (by
      intro l hl c hc
      rcases List.mem_cons.1 hl with h1 | h1
      · exact header_no_newline idxName f.cols hname hcols c (h1 ▸ hc)
      · rcases List.mem_map.1 h1 with ⟨r, _, rfl⟩
        exact csvRow_no_newline r c hc)]
  unfold parseCsvLines
  rw [List.getLast?_concat, List.dropLast_concat]
  have hsplit : splitOnChar ','
      (joinSep ',' (idxName.data :: f.cols.map String.data)) =
      idxName.data :: f.cols.map String.data := by
    rw [splitOnChar_joinSep ',' _ (by
        intro x hx c hc
        rcases List.mem_cons.1 hx with h1 | h1
        · exact (hname c (h1 ▸ hc)).1
        · rcases List.mem_map.1 h1 with ⟨s, hs, rfl⟩
          exact (hcols s hs c hc).1),
      if_neg (by simp)]
  have h2 : (f.cols.map String.data).map String.mk = f.cols := by
    rw [List.map_map]
    have hid : (String.mk ∘ String.data) = id := funext (fun s => rfl)
    rw [hid, List.map_id]
  simp only [hsplit, mapM_parseRow_csvRow, h2]

/-- C10: exporting a merged table with `to_csv` (line 119) and re-parsing
the byte stream returns the index label, the column list, the rows and
their values unchanged (round-trip law); the stream is the header line —
timestamp label first, then the column names in table order (for a merged
table: interest columns in upstream order, then `Oil Price` last) —
followed by one line per row in the table's own ascending row order. -/
theorem c10_csv_round_trip (idxName : String) (f : Frame)
    (hname : ∀ c ∈ idxName.data, c ≠ ',' ∧ c ≠ '\n')
    (hcols : ∀ s ∈ f.cols, ∀ c ∈ s.data, c ≠ ',' ∧ c ≠ '\n')
    (hsorted : List.Pairwise (· < ·) f.dates) :
    parseCsv (to_csv idxName f) = some (idxName, f) ∧
    to_csv idxName f =
      joinSep ',' (idxName.data :: f.cols.map String.data) ++
        '\n' :: unlinesC (f.rows.map csvRow) ∧
    (∀ g : Frame, parseCsv (to_csv idxName f) = some (idxName, g) →
      g.dates = f.dates ∧ List.Pairwise (· < ·) g.dates) := by
  refine ⟨parseCsv_to_csv idxName f hname hcols, rfl, ?_⟩
  intro g hg
  rw [parseCsv_to_csv idxName f hname hcols] at hg
  simp only [Option.some.injEq, Prod.mk.injEq] at hg
  constructor
  · rw [← hg.2]
  · rw [← hg.2]
    exact hsorted

/-- C10 witness: concrete round trip on the two-row frame with columns
`a` and `Oil Price` under index label `date`. -/
theorem c10_witness :
    parseCsv (to_csv "date" twoRowFrame) = some ("date", twoRowFrame) :=
  (c10_csv_round_trip "date" twoRowFrame (by decide) (by decide) (by decide)).1

end Tracker
